import Mathlib

/-!
Shallow embedding of `langchain/vectorstores/pinecone.py` (the `Pinecone`
vector-store adapter) and proofs of the specification claims about it.

Python dicts are modelled as association lists over string keys and a small
value type `PValue`; machine-level floats never enter any computation here
(embedding vectors are opaque to the adapter), so vectors are modelled as
`List Int` and similarity scores as opaque `Int` values that merely pass
through.  Fallible Python code (KeyError / IndexError / ValueError) is
modelled with `Except PError`.  Calls to the remote Pinecone service are
recorded as an explicit trace of `ServiceCall` events; the service's reply to
a `query` call is supplied as a function parameter, and the stream of random
bytes consumed by `uuid.uuid4()` is supplied as a `Nat → Nat` parameter.
-/

deriving instance DecidableEq for Except

namespace LC

/-- A Python (JSON-like) metadata value.  Only strings are ever written by the
adapter itself (`metadata[text_key] = text`); the extra constructor stands for
arbitrary caller-supplied values. -/
inductive PValue where
  | str (s : String)
  | int (n : Int)
  deriving DecidableEq, Repr

/-- A Python dict with string keys, as an association list (no duplicate keys
when well-formed, see `DictWF`). -/
abbrev Dict := List (String × PValue)

/-- Python `d[k] = v`: replace the value at the first occurrence of `k`,
keeping its position, else append the new binding at the end (Python dicts
keep insertion order). -/
def dictSet : Dict → String → PValue → Dict
  | [], k, v => [(k, v)]
  | (k1, v1) :: rest, k, v =>
      if k1 = k then (k, v) :: rest else (k1, v1) :: dictSet rest k v

/-- Python `d.get(k)` / `d[k]` lookup. -/
def dictGet? : Dict → String → Option PValue
  | [], _ => none
  | (k1, v1) :: rest, k => if k1 = k then some v1 else dictGet? rest k

/-- Python `d.pop(k)`: the value at `k` together with the dict with that
binding removed; `none` models the `KeyError` when `k` is absent. -/
def dictPop : Dict → String → Option (PValue × Dict)
  | [], _ => none
  | (k1, v1) :: rest, k =>
      if k1 = k then some (v1, rest)
      else (dictPop rest k).map (fun p => (p.1, (k1, v1) :: p.2))

/-- Well-formedness of a dict: no duplicate keys (true of every Python dict). -/
def DictWF (d : Dict) : Prop := (d.map Prod.fst).Nodup

instance (d : Dict) : Decidable (DictWF d) := by
  unfold DictWF; infer_instance

theorem dictGet?_set_self (d : Dict) (k : String) (v : PValue) :
    dictGet? (dictSet d k v) k = some v := by
  induction d with
  | nil => simp [dictSet, dictGet?]
  | cons p rest ih =>
      obtain ⟨k1, v1⟩ := p
      by_cases h : k1 = k <;> simp [dictSet, dictGet?, h, ih]

theorem dictGet?_eq_none_of_not_mem (d : Dict) (k : String)
    (h : k ∉ d.map Prod.fst) : dictGet? d k = none := by
  induction d with
  | nil => rfl
  | cons p rest ih =>
      obtain ⟨k1, v1⟩ := p
      simp only [List.map_cons, List.mem_cons] at h
      push_neg at h
      have hne : k1 ≠ k := fun e => h.1 e.symm
      simp [dictGet?, hne, ih h.2]

theorem dictPop_eq_none_iff (d : Dict) (k : String) :
    dictPop d k = none ↔ dictGet? d k = none := by
  induction d with
  | nil => simp [dictPop, dictGet?]
  | cons p rest ih =>
      obtain ⟨k1, v1⟩ := p
      by_cases h : k1 = k
      · simp [dictPop, dictGet?, h]
      · simp only [dictPop, dictGet?, if_neg h]
        rw [← ih]
        cases hp : dictPop rest k <;> simp

theorem dictWF_set (d : Dict) (k : String) (v : PValue) (h : DictWF d) :
    DictWF (dictSet d k v) := by
  induction d with
  | nil => simp [dictSet, DictWF]
  | cons p rest ih =>
      obtain ⟨k1, v1⟩ := p
      unfold DictWF at h
      simp only [List.map_cons, List.nodup_cons] at h
      by_cases hk : k1 = k
      · subst hk
        unfold DictWF
        simpa [dictSet] using h
      · have hrest := ih h.2
        unfold DictWF at hrest ⊢
        simp only [dictSet, if_neg hk, List.map_cons, List.nodup_cons]
        refine ⟨?_, hrest⟩
        -- k1 does not appear among the keys of dictSet rest k v
        have hkeys : ∀ rest : Dict, k1 ∉ rest.map Prod.fst →
            k1 ∉ (dictSet rest k v).map Prod.fst := by
          intro rest
          induction rest with
          | nil => intro _; simpa [dictSet] using hk
          | cons q rs ihq =>
              obtain ⟨k2, v2⟩ := q
              intro hnm
              simp only [List.map_cons, List.mem_cons] at hnm
              push_neg at hnm
              by_cases h2 : k2 = k
              · subst h2
                simp [dictSet, not_or] at hnm ⊢
                exact ⟨hnm.1, hnm.2⟩
              · simp only [dictSet, if_neg h2, List.map_cons, List.mem_cons]
                push_neg
                exact ⟨hnm.1, ihq hnm.2⟩
        exact hkeys rest h.1

/-- Popping the reserved key from `dictSet d k v` on a well-formed `d`
returns exactly `v`, and the remainder no longer contains `k`. -/
theorem dictPop_set_self (d : Dict) (k : String) (v : PValue) (hwf : DictWF d) :
    ∃ d1, dictPop (dictSet d k v) k = some (v, d1) ∧ dictGet? d1 k = none := by
  induction d with
  | nil => exact ⟨[], by simp [dictSet, dictPop, dictGet?]⟩
  | cons p rest ih =>
      obtain ⟨k1, v1⟩ := p
      unfold DictWF at hwf
      simp only [List.map_cons, List.nodup_cons] at hwf
      by_cases hk : k1 = k
      · subst hk
        refine ⟨rest, by simp [dictSet, dictPop], ?_⟩
        exact dictGet?_eq_none_of_not_mem rest k1 hwf.1
      · obtain ⟨d1, hpop, hget⟩ := ih hwf.2
        refine ⟨(k1, v1) :: d1, ?_, ?_⟩
        · simp [dictSet, dictPop, hk, hpop]
        · simp [dictGet?, hk, hget]

/-! ### `uuid.uuid4()` and its string rendering

CPython's `uuid.uuid4()` draws 16 random bytes, forces the version field
(bits 76–79) to 4 and the variant field (bits 62–63) to `10`, and `str()`
renders the 128-bit integer as 32 lowercase hex digits grouped 8-4-4-4-12
with dashes.  The random bytes are modelled as a `Nat` input. -/

/-- The sixteen lowercase hex digits, by character code: digits then a-f. -/
def hexDigits : List Char :=
  (List.range 16).map fun n => Char.ofNat (if n < 10 then 48 + n else 87 + n)

/-- Fixed-width big-endian lowercase hex rendering (CPython `'%032x' % n`). -/
def toHex : Nat → Nat → List Char
  | 0, _ => []
  | w + 1, n => toHex w (n / 16) ++ [hexDigits.getD (n % 16) '0']

/-- The 128-bit integer of `uuid.uuid4()` built from random input `r`:
variant bits 62–63 set to `10`, version bits 76–79 set to `0100`. -/
def uuid4nat (r : Nat) : Nat :=
  let n := r % 2 ^ 128
  let n := n % 2 ^ 62 + 2 * 2 ^ 62 + n / 2 ^ 64 * 2 ^ 64
  n % 2 ^ 76 + 4 * 2 ^ 76 + n / 2 ^ 80 * 2 ^ 80

/-- The character list of `str(uuid.uuid4())`: 8-4-4-4-12 hex groups. -/
def uuid4chars (r : Nat) : List Char :=
  let h := toHex 32 (uuid4nat r)
  h.take 8 ++ '-' :: ((h.drop 8).take 4 ++ '-' ::
    ((h.drop 12).take 4 ++ '-' :: ((h.drop 16).take 4 ++ '-' :: h.drop 20)))

/-- `str(uuid.uuid4())` itself. -/
def uuid4str (r : Nat) : String := String.mk (uuid4chars r)

/-- A hex digit, upper or lower case. -/
def isHexChar (c : Char) : Bool := c ∈ hexDigits ∨ c ∈ ['A', 'B', 'C', 'D', 'E', 'F']

/-- `validGroups ws cs` checks that `cs` consists of dash-separated groups of
hex digits whose widths are `ws`. -/
def validGroups : List Nat → List Char → Bool
  | [], cs => cs.isEmpty
  | [w], cs => decide (cs.length = w) && cs.all isHexChar
  | w :: w2 :: ws, cs =>
      decide ((cs.take w).length = w) && (cs.take w).all isHexChar &&
      match cs.drop w with
      | '-' :: rest => validGroups (w2 :: ws) rest
      | _ => false

/-- Syntactic UUID validity: 8-4-4-4-12 hex digit groups separated by dashes. -/
def isValidUUID (s : String) : Bool := validGroups [8, 4, 4, 4, 12] s.data

theorem toHex_length (w n : Nat) : (toHex w n).length = w := by
  induction w generalizing n with
  | zero => rfl
  | succ w ih => simp [toHex, ih]

theorem toHex_all_hex (w n : Nat) : (toHex w n).all isHexChar = true := by
  induction w generalizing n with
  | zero => rfl
  | succ w ih =>
      simp only [toHex, List.all_append, ih, Bool.true_and, List.all_cons,
        List.all_nil, Bool.and_true]
      have h16 : n % 16 < 16 := Nat.mod_lt _ (by omega)
      set m := n % 16 with hm
      interval_cases m <;> decide

theorem validGroups_cons (w w2 : Nat) (ws : List Nat) (g rest : List Char)
    (hg : g.length = w) (hhex : g.all isHexChar = true)
    (h : validGroups (w2 :: ws) rest = true) :
    validGroups (w :: w2 :: ws) (g ++ '-' :: rest) = true := by
  have htake : (g ++ '-' :: rest).take w = g := by
    rw [← hg]; exact List.take_left g _
  have hdrop : (g ++ '-' :: rest).drop w = '-' :: rest := by
    rw [← hg]; exact List.drop_left g _
  simp only [validGroups, htake, hdrop, hg, hhex, h, decide_True, Bool.and_self,
    Bool.true_and]

theorem all_hex_take (l : List Char) (n : Nat) (h : l.all isHexChar = true) :
    (l.take n).all isHexChar = true := by
  rw [List.all_eq_true] at h ⊢
  exact fun c hc => h c (List.take_subset n l hc)

theorem all_hex_drop (l : List Char) (n : Nat) (h : l.all isHexChar = true) :
    (l.drop n).all isHexChar = true := by
  rw [List.all_eq_true] at h ⊢
  exact fun c hc => h c (List.drop_subset n l hc)

/-- The rendered form of `uuid.uuid4()` is always a syntactically valid UUID. -/
theorem isValidUUID_uuid4str (r : Nat) : isValidUUID (uuid4str r) = true := by
  have hlen : (toHex 32 (uuid4nat r)).length = 32 := toHex_length _ _
  have hhex : (toHex 32 (uuid4nat r)).all isHexChar = true := toHex_all_hex _ _
  set h := toHex 32 (uuid4nat r) with hh
  have hdata : (uuid4str r).data = h.take 8 ++ '-' :: ((h.drop 8).take 4 ++ '-' ::
      ((h.drop 12).take 4 ++ '-' :: ((h.drop 16).take 4 ++ '-' :: h.drop 20))) := rfl
  unfold isValidUUID
  rw [hdata]
  apply validGroups_cons
  · simp [hlen]
  · exact all_hex_take _ _ hhex
  apply validGroups_cons
  · simp [List.length_take, List.length_drop, hlen]
  · exact all_hex_take _ _ (all_hex_drop _ _ hhex)
  apply validGroups_cons
  · simp [List.length_take, List.length_drop, hlen]
  · exact all_hex_take _ _ (all_hex_drop _ _ hhex)
  apply validGroups_cons
  · simp [List.length_take, List.length_drop, hlen]
  · exact all_hex_take _ _ (all_hex_drop _ _ hhex)
  simp only [validGroups, List.length_drop, hlen, Bool.and_eq_true, decide_eq_true_eq]
  exact ⟨by decide, all_hex_drop _ _ hhex⟩

/-! ### Data model of the adapter -/

/-- An embedding vector.  The adapter never inspects vector entries, so the
scalar type is opaque; `Int` keeps everything decidable. -/
abbrev Vec := List Int

/-- A similarity score reported by the remote service; passed through opaquely. -/
abbrev Score := Int

/-- Python exceptions the adapter can raise. -/
inductive PError where
  | keyError
  | indexError
  | valueError (msg : String)
  deriving DecidableEq, Repr

/-- `langchain.docstore.document.Document`; `page_content` receives whatever
value `metadata.pop(text_key)` returns, with no type check in the source. -/
structure Document where
  page_content : PValue
  metadata : Dict
  deriving DecidableEq, Repr

/-- One entry of the `matches` field of a Pinecone query response. -/
structure QueryMatch where
  id : String
  score : Score
  metadata : Dict
  deriving DecidableEq, Repr

/-- One `(id, embedding, metadata)` triple submitted to `Index.upsert`. -/
structure UpsertRecord where
  id : String
  vector : Vec
  metadata : Dict
  deriving DecidableEq, Repr

/-- A remote-service interaction (plus the local embedding of a batch, kept in
the trace so that the order of index creation relative to embedding is
observable). -/
inductive ServiceCall where
  | listIndexes
  | embedBatch (batch : List String)
  | createIndex (name : String) (dimension : Nat)
  | upsert (indexName : String) (vectors : List UpsertRecord) (ns : Option String)
  deriving DecidableEq, Repr

/-- The `Pinecone` adapter: a handle to a remote index (just its name here),
the query-embedding function and the reserved metadata key. -/
structure Pinecone where
  index : String
  embedding_function : String → Vec
  text_key : String

/-- `Pinecone.__init__`: rejects a handle that is not a `pinecone.index.Index`
instance (modelled by `none`, e.g. Python `None`) with a `ValueError`. -/
def Pinecone.init (index : Option String) (embedding_function : String → Vec)
    (text_key : String) : Except PError Pinecone :=
  match index with
  | none => .error (.valueError "client should be an instance of pinecone.index.Index")
  | some name => .ok ⟨name, embedding_function, text_key⟩

/-! ### `add_texts` -/

/-- The loop body of `add_texts`: walks `texts` with running index `i`,
generating an id from the random stream, embedding the text, fetching the
caller metadata dict (`metadatas[i]` when `metadatas` is truthy, else a fresh
`\x7b\x7d`), setting `metadata[text_key] = text` (an in-place mutation of the
caller's dict, modelled by `List.set` on the metadata list), and collecting
the `(id, embedding, metadata)` triples and the ids.  Returns the triples,
the ids, and the caller's metadata list as it stands after the loop. -/
def addTextsLoop (embed : String → Vec) (tk : String) (randoms : Nat → Nat)
    (useMetas : Bool) :
    Nat → List String → List Dict →
    Except PError (List UpsertRecord × List String × List Dict)
  | _, [], metas => .ok ([], [], metas)
  | i, t :: rest, metas =>
    let id := uuid4str (randoms i)
    let emb := embed t
    match (if useMetas then metas[i]? else some []) with
    | none => .error .indexError
    | some m0 =>
      let md := dictSet m0 tk (.str t)
      let metas1 := if useMetas then metas.set i md else metas
      match addTextsLoop embed tk randoms useMetas (i + 1) rest metas1 with
      | .error e => .error e
      | .ok (docs, ids, mAfter) => .ok (⟨id, emb, md⟩ :: docs, id :: ids, mAfter)

/-- Result of `add_texts`: the returned ids, the single upsert call's payload
and namespace, and the caller's `metadatas` list after the call (reflecting
in-place mutation of its dicts). -/
structure AddTextsResult where
  ids : List String
  vectors : List UpsertRecord
  ns : Option String
  metadatasAfter : List Dict
  deriving DecidableEq, Repr

/-- `Pinecone.add_texts`: embed each text, merge `\x7btext_key: text\x7d` into its
(positionally aligned) metadata, submit everything as one upsert, and return
the generated ids in input order.  `metadatas` is used only when truthy
(Python: `metadatas[i] if metadatas else \x7b\x7d`). -/
def Pinecone.add_texts (self : Pinecone) (randoms : Nat → Nat)
    (texts : List String) (metadatas : Option (List Dict)) (ns : Option String) :
    Except PError AddTextsResult :=
  let useMetas := match metadatas with
    | some (_ :: _) => true
    | _ => false
  let metas0 := metadatas.getD []
  match addTextsLoop self.embedding_function self.text_key randoms useMetas
      0 texts metas0 with
  | .error e => .error e
  | .ok (docs, ids, mAfter) => .ok ⟨ids, docs, ns, mAfter⟩

/-! ### `similarity_search_with_score` and `similarity_search`

The two methods duplicate the result-reshaping loop in the source, so they
are embedded as two separate recursions and their agreement is a theorem. -/

/-- The result loop of `similarity_search_with_score`: for each match, pop
`text_key` from its metadata (KeyError when absent) and pair the resulting
`Document` with the match's score. -/
def buildDocsWithScore (tk : String) :
    List QueryMatch → Except PError (List (Document × Score))
  | [] => .ok []
  | m :: ms =>
    match dictPop m.metadata tk with
    | none => .error .keyError
    | some (v, md) =>
      match buildDocsWithScore tk ms with
      | .error e => .error e
      | .ok rest => .ok ((⟨v, md⟩, m.score) :: rest)

/-- The result loop of `similarity_search`: identical to the loop of
`similarity_search_with_score` except that scores are dropped. -/
def buildDocs (tk : String) : List QueryMatch → Except PError (List Document)
  | [] => .ok []
  | m :: ms =>
    match dictPop m.metadata tk with
    | none => .error .keyError
    | some (v, md) =>
      match buildDocs tk ms with
      | .error e => .error e
      | .ok rest => .ok (⟨v, md⟩ :: rest)

/-- `Pinecone.similarity_search_with_score`.  `queryFn` models
`self._index.query([query_vec], top_k=k, include_metadata=True,
namespace=ns)["matches"]`: the remote service's reply to the query call. -/
def Pinecone.similarity_search_with_score (self : Pinecone)
    (queryFn : Vec → Nat → Option String → List QueryMatch)
    (query : String) (k : Nat) (ns : Option String) :
    Except PError (List (Document × Score)) :=
  buildDocsWithScore self.text_key (queryFn (self.embedding_function query) k ns)

/-- `Pinecone.similarity_search`. -/
def Pinecone.similarity_search (self : Pinecone)
    (queryFn : Vec → Nat → Option String → List QueryMatch)
    (query : String) (k : Nat) (ns : Option String) :
    Except PError (List Document) :=
  buildDocs self.text_key (queryFn (self.embedding_function query) k ns)

/-! ### `from_texts` -/

/-- Python `zip(ids_batch, embeds, metadata)` followed by `list(...)`:
triples truncated to the shortest of the three lists. -/
def zipRecords : List String → List Vec → List Dict → List UpsertRecord
  | i :: is1, v :: vs, m :: ms => ⟨i, v, m⟩ :: zipRecords is1 vs ms
  | _, _, _ => []

/-- The batch loop of `from_texts` over the not-yet-processed suffix of
`texts` (and, in parallel, of the caller's `metadatas` list).  Per batch:
slice out up to `bs` texts, embed them, slice (or freshly create) the
matching metadata dicts, mutate each with `metadata[j][text_key] = line_j`
(IndexError when the metadata slice is shorter than the text slice), zip into
upsert triples, lazily create the remote index on the first batch when it did
not pre-exist (IndexError first if the embedding batch is empty, from
`len(embeds[0])`), and upsert.  Returns the trace of calls, and on success
the final index handle together with the caller's metadata suffix after
mutation.  `off` is the number of uuids drawn so far. -/
def fromTextsLoop (embedDocs : List String → List Vec) (tk : String)
    (name : String) (ns : Option String) (randoms : Nat → Nat)
    (bs : Nat) (hbs : 0 < bs) (useMetas : Bool) :
    List String → List Dict → Nat → Option String →
    List ServiceCall × Except PError (Option String × List Dict)
  | [], metasRest, _, index => ([], .ok (index, metasRest))
  | t :: rest1, metasRest, off, index =>
    let rest := t :: rest1
    let batch := rest.take bs
    let embeds := embedDocs batch
    let metaBatch := if useMetas then metasRest.take bs
      else List.replicate batch.length []
    if batch.length ≤ metaBatch.length then
      let updated := List.zipWith (fun m tx => dictSet m tk (.str tx)) metaBatch batch
        ++ metaBatch.drop batch.length
      let ids := (List.range batch.length).map fun n => uuid4str (randoms (off + n))
      let toUpsert := zipRecords ids embeds updated
      let metaDone := if useMetas then updated else metasRest.take bs
      match index, embeds[0]? with
      | none, none => ([.embedBatch batch], .error .indexError)
      | none, some e0 =>
        let rec1 := fromTextsLoop embedDocs tk name ns randoms bs hbs useMetas
          (rest.drop bs) (metasRest.drop bs) (off + batch.length) (some name)
        (.embedBatch batch :: .createIndex name e0.length ::
          .upsert name toUpsert ns :: rec1.1,
         rec1.2.map fun out => (out.1, metaDone ++ out.2))
      | some ix, _ =>
        let rec1 := fromTextsLoop embedDocs tk name ns randoms bs hbs useMetas
          (rest.drop bs) (metasRest.drop bs) (off + batch.length) (some ix)
        (.embedBatch batch :: .upsert ix toUpsert ns :: rec1.1,
         rec1.2.map fun out => (out.1, metaDone ++ out.2))
    else ([.embedBatch batch], .error .indexError)
  termination_by rest _ _ _ => rest.length
  decreasing_by
    all_goals simp only [List.length_drop, List.length_cons]; omega

/-- Outcome of `from_texts`: the full trace of service calls, the constructed
adapter (or the exception), and the caller's `metadatas` list after the call
(`none` when the call raised mid-loop). -/
structure FromTextsResult where
  trace : List ServiceCall
  result : Except PError Pinecone
  metadatasAfter : Option (List Dict)

/-- `Pinecone.from_texts`.  The target index name is the argument when truthy,
else a fresh uuid (`index_name or str(uuid.uuid4())`); `list_indexes` is
always called; the loop processes `texts` in `batch_size` chunks; finally the
constructor is applied to the (possibly still absent) index handle.
`existing` is the remote service's reply to `list_indexes`; a zero
`batch_size` is the `ValueError` that Python's `range` raises for step 0. -/
def from_texts (embedDocs : List String → List Vec) (embedQuery : String → Vec)
    (texts : List String) (metadatas : Option (List Dict)) (batch_size : Nat)
    (text_key : String) (index_name : Option String) (ns : Option String)
    (existing : List String) (rName : Nat) (randoms : Nat → Nat) :
    FromTextsResult :=
  let name := match index_name with
    | some n => if n = "" then uuid4str rName else n
    | none => uuid4str rName
  let index0 : Option String := if name ∈ existing then some name else none
  if hbs : 0 < batch_size then
    let useMetas := match metadatas with
      | some (_ :: _) => true
      | _ => false
    let metas0 := metadatas.getD []
    let res := fromTextsLoop embedDocs text_key name ns randoms batch_size hbs
      useMetas texts metas0 0 index0
    { trace := .listIndexes :: res.1
      result := match res.2 with
        | .error e => .error e
        | .ok (idx, _) => Pinecone.init idx embedQuery text_key
      metadatasAfter := match res.2 with
        | .error _ => none
        | .ok (_, m) => some m }
  else
    { trace := [.listIndexes]
      result := .error (.valueError "range() arg 3 must not be zero")
      metadatasAfter := none }

/-- `Pinecone.from_existing_index`: constructs a handle for the given name and
applies the constructor — no service call of any kind is made. -/
def from_existing_index (index_name : String) (embedQuery : String → Vec)
    (text_key : String) : List ServiceCall × Except PError Pinecone :=
  ([], Pinecone.init (some index_name) embedQuery text_key)

/-- All records submitted across the upsert calls of a trace, in order. -/
def traceRecords (tr : List ServiceCall) : List UpsertRecord :=
  (tr.map fun c => match c with
    | .upsert _ vs _ => vs
    | _ => []).flatten

/-- The stored source text of an upserted record: the string at `text_key` in
its metadata, when present. -/
def recordText? (rec : UpsertRecord) (tk : String) : Option String :=
  match dictGet? rec.metadata tk with
  | some (.str t) => some t
  | _ => none

/-! ### Lemmas about the two query-result loops -/

theorem buildDocs_eq_withScore (tk : String) (ms : List QueryMatch) :
    buildDocs tk ms = (buildDocsWithScore tk ms).map (List.map Prod.fst) := by
  induction ms with
  | nil => rfl
  | cons m rest ih =>
      simp only [buildDocs, buildDocsWithScore]
      cases hpop : dictPop m.metadata tk with
      | none => rfl
      | some p =>
          obtain ⟨v, md⟩ := p
          rw [ih]
          cases hrec : buildDocsWithScore tk rest <;> simp [Except.map]

theorem buildDocs_ok_spec (tk : String) :
    ∀ ms docs, buildDocs tk ms = .ok docs →
      docs.length = ms.length ∧
      ∀ (j : Nat) (m : QueryMatch), ms[j]? = some m → ∃ d, docs[j]? = some d ∧
        dictPop m.metadata tk = some (d.page_content, d.metadata) := by
  intro ms
  induction ms with
  | nil =>
      intro docs h
      simp only [buildDocs] at h
      cases h
      exact ⟨rfl, by intro j m hm; simp at hm⟩
  | cons m rest ih =>
      intro docs h
      simp only [buildDocs] at h
      cases hpop : dictPop m.metadata tk with
      | none => rw [hpop] at h; cases h
      | some p =>
          obtain ⟨v, md⟩ := p
          rw [hpop] at h
          cases hrec : buildDocs tk rest with
          | error e => rw [hrec] at h; cases h
          | ok docsRest =>
              rw [hrec] at h
              cases h
              obtain ⟨hlen, hspec⟩ := ih docsRest hrec
              refine ⟨by simp [hlen], ?_⟩
              intro j mj hmj
              cases j with
              | zero =>
                  simp only [List.getElem?_cons_zero, Option.some_inj] at hmj
                  subst hmj
                  exact ⟨⟨v, md⟩, by simp, hpop⟩
              | succ j =>
                  simp only [List.getElem?_cons_succ] at hmj ⊢
                  exact hspec j mj hmj

theorem buildDocsWithScore_keyError (tk : String) :
    ∀ ms, (∃ m ∈ ms, dictGet? m.metadata tk = none) →
      buildDocsWithScore tk ms = .error .keyError := by
  intro ms
  induction ms with
  | nil => rintro ⟨m, hm, _⟩; cases hm
  | cons m rest ih =>
      rintro ⟨m1, hm1, hget⟩
      simp only [buildDocsWithScore]
      rcases List.mem_cons.mp hm1 with h | h
      · subst h
        rw [(dictPop_eq_none_iff _ _).mpr hget]
      · cases hpop : dictPop m.metadata tk with
        | none => rfl
        | some p =>
            obtain ⟨v, md⟩ := p
            rw [ih ⟨m1, h, hget⟩]

theorem buildDocsWithScore_ok_of_keys (tk : String) :
    ∀ ms, (∀ m ∈ ms, (dictGet? m.metadata tk).isSome) →
      ∃ l, buildDocsWithScore tk ms = .ok l := by
  intro ms
  induction ms with
  | nil => intro _; exact ⟨[], rfl⟩
  | cons m rest ih =>
      intro hkeys
      have hm : (dictGet? m.metadata tk).isSome := hkeys m (List.mem_cons_self m rest)
      have hpop : dictPop m.metadata tk ≠ none := by
        rw [Ne, dictPop_eq_none_iff]
        intro he
        rw [he] at hm
        simp at hm
      obtain ⟨l, hl⟩ := ih fun m1 h1 => hkeys m1 (List.mem_cons_of_mem m h1)
      simp only [buildDocsWithScore]
      cases hp : dictPop m.metadata tk with
      | none => exact absurd hp hpop
      | some p =>
          obtain ⟨v, md⟩ := p
          rw [hl]
          exact ⟨_, rfl⟩

/-! ### Claims C4, C5, C7, C8 -/

/-- Claim C4: for every query, `k`, namespace and remote query response,
`similarity_search` returns exactly what `similarity_search_with_score`
returns for the same inputs, in identical order, with scores discarded. -/
theorem similarity_search_refines_with_score (p : Pinecone)
    (queryFn : Vec → Nat → Option String → List QueryMatch)
    (query : String) (k : Nat) (ns : Option String) :
    p.similarity_search queryFn query k ns =
      (p.similarity_search_with_score queryFn query k ns).map (List.map Prod.fst) :=
  buildDocs_eq_withScore _ _

/-- Claim C5: when the remote service returns at most `k` matches for a
`top_k = k` query (its contract), `similarity_search` returns at most `k`
documents, one per match, in match order: the `j`-th document is built from
the `j`-th match by popping `text_key` from its metadata. -/
theorem similarity_search_at_most_k (p : Pinecone)
    (queryFn : Vec → Nat → Option String → List QueryMatch)
    (query : String) (k : Nat) (ns : Option String) (docs : List Document)
    (hk : (queryFn (p.embedding_function query) k ns).length ≤ k)
    (h : p.similarity_search queryFn query k ns = .ok docs) :
    docs.length ≤ k ∧
    docs.length = (queryFn (p.embedding_function query) k ns).length ∧
    ∀ (j : Nat) (m : QueryMatch),
      (queryFn (p.embedding_function query) k ns)[j]? = some m →
      ∃ d, docs[j]? = some d ∧
        dictPop m.metadata p.text_key = some (d.page_content, d.metadata) := by
  obtain ⟨hlen, hspec⟩ := buildDocs_ok_spec p.text_key _ docs h
  exact ⟨hlen ▸ hk, hlen, hspec⟩

theorem similarity_search_at_most_k_witness :
    ((fun (_ : Vec) (_ : Nat) (_ : Option String) =>
        [(⟨"m", 3, [("text", PValue.str "a")]⟩ : QueryMatch)]) [5] 5 none).length ≤ 5 ∧
    ((⟨"i", fun _ => [5], "text"⟩ : Pinecone).similarity_search
        (fun _ _ _ => [⟨"m", 3, [("text", PValue.str "a")]⟩]) "q" 5 none =
      .ok [⟨PValue.str "a", []⟩]) ∧
    [(⟨PValue.str "a", []⟩ : Document)].length ≤ 5 :=
  ⟨by decide, by decide,
    (similarity_search_at_most_k ⟨"i", fun _ => [5], "text"⟩
      (fun _ _ _ => [⟨"m", 3, [("text", PValue.str "a")]⟩]) "q" 5 none
      [⟨PValue.str "a", []⟩] (by decide) (by decide)).1⟩

/-- Claim C7: if any match of the remote response lacks `text_key` in its
metadata, both search methods fail with the key-lookup error; if every match
has it, both succeed. -/
theorem similarity_search_key_error (p : Pinecone)
    (queryFn : Vec → Nat → Option String → List QueryMatch)
    (query : String) (k : Nat) (ns : Option String) :
    ((∃ m ∈ queryFn (p.embedding_function query) k ns,
        dictGet? m.metadata p.text_key = none) →
      p.similarity_search_with_score queryFn query k ns = .error .keyError ∧
      p.similarity_search queryFn query k ns = .error .keyError) ∧
    ((∀ m ∈ queryFn (p.embedding_function query) k ns,
        (dictGet? m.metadata p.text_key).isSome) →
      (∃ l, p.similarity_search_with_score queryFn query k ns = .ok l) ∧
      ∃ l, p.similarity_search queryFn query k ns = .ok l) := by
  constructor
  · intro hbad
    have h1 := buildDocsWithScore_keyError p.text_key _ hbad
    refine ⟨h1, ?_⟩
    show buildDocs p.text_key _ = _
    rw [buildDocs_eq_withScore, h1]
    rfl
  · intro hgood
    obtain ⟨l, hl⟩ := buildDocsWithScore_ok_of_keys p.text_key _ hgood
    refine ⟨⟨l, hl⟩, ⟨l.map Prod.fst, ?_⟩⟩
    show buildDocs p.text_key _ = _
    rw [buildDocs_eq_withScore, hl]
    rfl

theorem similarity_search_key_error_witness :
    ((⟨"i", fun _ => [5], "text"⟩ : Pinecone).similarity_search_with_score
        (fun _ _ _ => [⟨"m", 3, [("x", PValue.int 1)]⟩]) "q" 2 none =
      .error .keyError) ∧
    ∃ l, (⟨"i", fun _ => [5], "text"⟩ : Pinecone).similarity_search_with_score
        (fun _ _ _ => [⟨"m", 3, [("text", PValue.str "a")]⟩]) "q" 2 none = .ok l :=
  ⟨((similarity_search_key_error ⟨"i", fun _ => [5], "text"⟩
      (fun _ _ _ => [⟨"m", 3, [("x", PValue.int 1)]⟩]) "q" 2 none).1
      ⟨⟨"m", 3, [("x", PValue.int 1)]⟩, by simp, by decide⟩).1,
    ((similarity_search_key_error ⟨"i", fun _ => [5], "text"⟩
      (fun _ _ _ => [⟨"m", 3, [("text", PValue.str "a")]⟩]) "q" 2 none).2
      (by intro m hm; simp at hm; subst hm; decide)).1⟩

/-- Claim C8: `from_existing_index` makes no service call at all — in
particular no list-indexes and no query — and succeeds locally for every
index name, returning an adapter whose handle is bound to that very name;
nothing in it depends on which indexes actually exist remotely. -/
theorem from_existing_index_no_check (index_name : String)
    (embedQuery : String → Vec) (text_key : String) :
    from_existing_index index_name embedQuery text_key =
      ([], .ok ⟨index_name, embedQuery, text_key⟩) := rfl

/-! ### The `add_texts` loop invariant -/

/-- Everything the claims need about one run of the `add_texts` loop:
lengths, the ids/records correspondence, the shape of each stored record,
and how the caller's metadata list is mutated. -/
theorem addTextsLoop_ok_spec (embed : String → Vec) (tk : String)
    (randoms : Nat → Nat) (useMetas : Bool) :
    ∀ (texts : List String) (i : Nat) (metas : List Dict)
      (docs : List UpsertRecord) (ids : List String) (mAfter : List Dict),
      addTextsLoop embed tk randoms useMetas i texts metas =
        .ok (docs, ids, mAfter) →
      docs.length = texts.length ∧
      ids = docs.map (fun r => r.id) ∧
      mAfter.length = metas.length ∧
      (useMetas = false → mAfter = metas) ∧
      (∀ p : Nat, (p < i ∨ i + texts.length ≤ p) → mAfter[p]? = metas[p]?) ∧
      (∀ (j : Nat) (t : String), texts[j]? = some t →
        ∃ m0 : Dict,
          (useMetas = true → metas[i + j]? = some m0) ∧
          (useMetas = false → m0 = []) ∧
          docs[j]? = some ⟨uuid4str (randoms (i + j)), embed t, dictSet m0 tk (.str t)⟩ ∧
          (useMetas = true → mAfter[i + j]? = some (dictSet m0 tk (.str t)))) := by
  intro texts
  induction texts with
  | nil =>
      intro i metas docs ids mAfter h
      simp only [addTextsLoop] at h
      cases h
      refine ⟨rfl, rfl, rfl, fun _ => rfl, fun _ _ => rfl, ?_⟩
      intro j t hj
      simp at hj
  | cons t rest ih =>
      intro i metas docs ids mAfter h
      simp only [addTextsLoop] at h
      split at h
      · cases h
      · rename_i m0 hm
        split at h
        · cases h
        · rename_i out docs1 ids1 mAfter1 hrec
          cases h
          obtain ⟨hlen, hids, hmaLen, hfalse, hframe, hspec⟩ :=
            ih (i + 1) _ docs1 ids1 mAfter hrec
          have hset_len :
              (if useMetas then metas.set i (dictSet m0 tk (.str t)) else metas).length
                = metas.length := by
            cases useMetas <;> simp
          have hi_lt : useMetas = true → i < metas.length := by
            intro hu
            rw [hu] at hm
            simp only [if_pos rfl] at hm
            exact (List.getElem?_eq_some.mp hm).1
          have hmetas1_ne : ∀ p : Nat, p ≠ i →
              (if useMetas then metas.set i (dictSet m0 tk (.str t)) else metas)[p]?
                = metas[p]? := by
            intro p hp
            cases useMetas
            · simp
            · simp only [if_pos rfl]
              exact List.getElem?_set_ne fun e => hp e.symm
          refine ⟨by simp [hlen], by simp [hids], by rw [hmaLen, hset_len], ?_, ?_, ?_⟩
          · intro hu
            have := hfalse hu
            rw [hu] at this
            simpa using this
          · intro p hp
            have hp1 : p < i + 1 ∨ (i + 1) + rest.length ≤ p := by
              rcases hp with h1 | h1
              · exact Or.inl (by omega)
              · exact Or.inr (by simp at h1 ⊢; omega)
            rw [hframe p hp1]
            refine hmetas1_ne p ?_
            rcases hp with h1 | h1
            · omega
            · simp only [List.length_cons] at h1
              omega
          · intro j tj hj
            cases j with
            | zero =>
                simp only [List.getElem?_cons_zero, Option.some_inj] at hj
                subst hj
                refine ⟨m0, ?_, ?_, by simp, ?_⟩
                · intro hu
                  rw [hu] at hm
                  simpa using hm
                · intro hu
                  rw [hu] at hm
                  simpa using hm.symm
                · intro hu
                  have hpi : mAfter[i + 0]? =
                      (if useMetas then metas.set i (dictSet m0 tk (.str t)) else metas)[i]? := by
                    simpa using hframe i (Or.inl (by omega))
                  rw [hpi, hu]
                  simp only [if_pos rfl]
                  exact List.getElem?_set_self (hi_lt hu)
            | succ j =>
                simp only [List.getElem?_cons_succ] at hj
                obtain ⟨m1, hm1, hm1f, hdoc, hma⟩ := hspec j tj hj
                have harith : i + (j + 1) = (i + 1) + j := by omega
                refine ⟨m1, ?_, hm1f, ?_, ?_⟩
                · intro hu
                  rw [harith, ← hm1 hu]
                  exact (hmetas1_ne ((i + 1) + j) (by omega)).symm
                · simpa [harith] using hdoc
                · intro hu
                  rw [harith]
                  exact hma hu

/-- Truthiness of the `metadatas` argument (`if metadatas` in Python). -/
def metasTruthy (metadatas : Option (List Dict)) : Bool :=
  match metadatas with
  | some (_ :: _) => true
  | _ => false

theorem add_texts_ok_elim (p : Pinecone) (randoms : Nat → Nat)
    (texts : List String) (metadatas : Option (List Dict)) (ns : Option String)
    (r : AddTextsResult) (h : p.add_texts randoms texts metadatas ns = .ok r) :
    ∃ docs ids mAfter,
      addTextsLoop p.embedding_function p.text_key randoms
          (metasTruthy metadatas) 0 texts (metadatas.getD []) =
        .ok (docs, ids, mAfter) ∧
      r = ⟨ids, docs, ns, mAfter⟩ := by
  simp only [Pinecone.add_texts] at h
  split at h
  · cases h
  · rename_i docs ids mAfter hloop
    cases h
    exact ⟨docs, ids, mAfter, by
      cases metadatas with
      | none => exact hloop
      | some l => cases l <;> exact hloop, rfl⟩

/-- Claim C1: for a non-empty input list, a successful `add_texts` returns
exactly one id per input text, each a syntactically valid UUID, in input
order: the `j`-th returned id is the id of the `j`-th upserted record, which
carries the embedding of the `j`-th text. -/
theorem add_texts_ids_spec (p : Pinecone) (randoms : Nat → Nat)
    (texts : List String) (metadatas : Option (List Dict)) (ns : Option String)
    (r : AddTextsResult) (hne : texts ≠ [])
    (h : p.add_texts randoms texts metadatas ns = .ok r) :
    r.ids.length = texts.length ∧
    r.vectors.length = texts.length ∧
    r.ids = r.vectors.map (fun rec => rec.id) ∧
    (∀ id ∈ r.ids, isValidUUID id = true) ∧
    ∀ (j : Nat) (t : String), texts[j]? = some t →
      ∃ rec : UpsertRecord, r.vectors[j]? = some rec ∧ r.ids[j]? = some rec.id ∧
        rec.id = uuid4str (randoms j) ∧ rec.vector = p.embedding_function t := by
  obtain ⟨docs, ids, mAfter, hloop, hr⟩ := add_texts_ok_elim p randoms _ _ _ _ h
  subst hr
  obtain ⟨hlen, hids, _, _, _, hspec⟩ :=
    addTextsLoop_ok_spec p.embedding_function p.text_key randoms _ _ _ _ _ _ _ hloop
  have hidlen : ids.length = texts.length := by simp [hids, hlen]
  refine ⟨hidlen, hlen, hids, ?_, ?_⟩
  · intro id hid
    rw [hids] at hid
    obtain ⟨rec, hmem, hrecid⟩ := List.mem_map.mp hid
    obtain ⟨j, hj⟩ := List.mem_iff_getElem?.mp hmem
    have hjlt : j < texts.length := by
      rw [← hlen]
      exact (List.getElem?_eq_some.mp hj).1
    obtain ⟨t, ht⟩ : ∃ t, texts[j]? = some t :=
      ⟨texts[j], List.getElem?_eq_getElem hjlt⟩
    obtain ⟨m0, _, _, hdoc, _⟩ := hspec j t ht
    rw [hj] at hdoc
    have hrid : rec = ⟨uuid4str (randoms (0 + j)), p.embedding_function t,
        dictSet m0 p.text_key (.str t)⟩ := by
      injection hdoc
    rw [← hrecid, hrid]
    exact isValidUUID_uuid4str _
  · intro j t ht
    obtain ⟨m0, _, _, hdoc, _⟩ := hspec j t ht
    simp only [Nat.zero_add] at hdoc
    refine ⟨_, hdoc, ?_, rfl, rfl⟩
    rw [hids, List.getElem?_map, hdoc]
    rfl

theorem add_texts_ids_spec_witness :
    (["a"] ≠ ([] : List String)) ∧
    (Pinecone.add_texts ⟨"i", fun _ => [5], "text"⟩ (fun n => n) ["a"] none none =
      .ok ⟨[uuid4str 0], [⟨uuid4str 0, [5], [("text", PValue.str "a")]⟩], none, []⟩) ∧
    [uuid4str 0].length = ["a"].length :=
  ⟨by decide, rfl,
    (add_texts_ids_spec ⟨"i", fun _ => [5], "text"⟩ (fun n => n) ["a"] none none
      ⟨[uuid4str 0], [⟨uuid4str 0, [5], [("text", PValue.str "a")]⟩], none, []⟩
      (by decide) rfl).1⟩

/-- Claim C3: a text stored by `add_texts` and then returned by the remote
service for some query comes back from `similarity_search` as a `Document`
whose content is exactly the original text and whose metadata is the stored
metadata with the `text_key` binding removed (in particular `text_key` is
absent from it). -/
theorem add_texts_round_trip (p : Pinecone) (randoms : Nat → Nat)
    (texts : List String) (metadatas : Option (List Dict)) (ns : Option String)
    (r : AddTextsResult)
    (h : p.add_texts randoms texts metadatas ns = .ok r)
    (hwf : ∀ l, metadatas = some l → ∀ d ∈ l, DictWF d)
    (j : Nat) (t : String) (ht : texts[j]? = some t)
    (rec : UpsertRecord) (hrec : r.vectors[j]? = some rec)
    (queryFn : Vec → Nat → Option String → List QueryMatch)
    (q : String) (k : Nat) (ns2 : Option String) (mid : String) (sc : Score)
    (hq : queryFn (p.embedding_function q) k ns2 = [⟨mid, sc, rec.metadata⟩]) :
    ∃ d1 : Dict,
      p.similarity_search queryFn q k ns2 = .ok [⟨PValue.str t, d1⟩] ∧
      dictPop rec.metadata p.text_key = some (PValue.str t, d1) ∧
      dictGet? d1 p.text_key = none := by
  obtain ⟨docs, ids, mAfter, hloop, hr⟩ := add_texts_ok_elim p randoms _ _ _ _ h
  subst hr
  obtain ⟨_, _, _, _, _, hspec⟩ :=
    addTextsLoop_ok_spec p.embedding_function p.text_key randoms _ _ _ _ _ _ _ hloop
  obtain ⟨m0, hm0t, hm0f, hdoc, _⟩ := hspec j t ht
  simp only [Nat.zero_add] at hdoc
  rw [hrec] at hdoc
  have hrec_eq : rec = ⟨uuid4str (randoms j), p.embedding_function t,
      dictSet m0 p.text_key (.str t)⟩ := by
    injection hdoc
  have hm0wf : DictWF m0 := by
    cases hu : metasTruthy metadatas with
    | false => rw [hm0f hu]; exact List.nodup_nil
    | true =>
        have hm0 := hm0t hu
        cases metadatas with
        | none => simp [metasTruthy] at hu
        | some l =>
            have hmem : m0 ∈ l := by
              have : (Option.getD (some l) []) = l := rfl
              rw [this] at hm0
              exact List.mem_iff_getElem?.mpr ⟨0 + j, hm0⟩
            exact hwf l rfl m0 hmem
  obtain ⟨d1, hpop, hnone⟩ :=
    dictPop_set_self m0 p.text_key (.str t) hm0wf
  refine ⟨d1, ?_, ?_, hnone⟩
  · show buildDocs p.text_key _ = _
    rw [hq]
    simp only [buildDocs, hrec_eq, hpop]
  · rw [hrec_eq]
    exact hpop

theorem add_texts_round_trip_witness :
    (Pinecone.add_texts ⟨"i", fun _ => [5], "text"⟩ (fun n => n) ["a"]
        (some [[("x", PValue.int 1)]]) none =
      .ok ⟨[uuid4str 0],
        [⟨uuid4str 0, [5], [("x", PValue.int 1), ("text", PValue.str "a")]⟩],
        none, [[("x", PValue.int 1), ("text", PValue.str "a")]]⟩) ∧
    ∃ d1 : Dict,
      (⟨"i", fun _ => [5], "text"⟩ : Pinecone).similarity_search
          (fun _ _ _ => [⟨"m", 9, [("x", PValue.int 1), ("text", PValue.str "a")]⟩])
          "q" 4 none = .ok [⟨PValue.str "a", d1⟩] ∧
      dictPop [("x", PValue.int 1), ("text", PValue.str "a")] "text" =
        some (PValue.str "a", d1) ∧
      dictGet? d1 "text" = none :=
  ⟨rfl,
    add_texts_round_trip ⟨"i", fun _ => [5], "text"⟩ (fun n => n) ["a"]
      (some [[("x", PValue.int 1)]]) none
      ⟨[uuid4str 0],
        [⟨uuid4str 0, [5], [("x", PValue.int 1), ("text", PValue.str "a")]⟩],
        none, [[("x", PValue.int 1), ("text", PValue.str "a")]]⟩
      rfl (by intro l hl d hd; cases hl; simp at hd; subst hd; decide)
      0 "a" rfl
      ⟨uuid4str 0, [5], [("x", PValue.int 1), ("text", PValue.str "a")]⟩
      rfl
      (fun _ _ _ => [⟨"m", 9, [("x", PValue.int 1), ("text", PValue.str "a")]⟩])
      "q" 4 none "m" 9 rfl⟩

/-! ### Lemmas about the `from_texts` loop -/

/-- One unfolding of `fromTextsLoop` on a non-empty suffix. -/
theorem fromTextsLoop_ne_nil (embedDocs : List String → List Vec)
    (tk name : String) (ns : Option String) (randoms : Nat → Nat)
    (bs : Nat) (hbs : 0 < bs) (useMetas : Bool)
    (rest : List String) (hne : rest ≠ [])
    (metasRest : List Dict) (off : Nat) (index : Option String) :
    fromTextsLoop embedDocs tk name ns randoms bs hbs useMetas
        rest metasRest off index =
      (let batch := rest.take bs
       let embeds := embedDocs batch
       let metaBatch := if useMetas then metasRest.take bs
         else List.replicate batch.length []
       if batch.length ≤ metaBatch.length then
         let updated := List.zipWith (fun m tx => dictSet m tk (.str tx)) metaBatch batch
           ++ metaBatch.drop batch.length
         let ids := (List.range batch.length).map fun n => uuid4str (randoms (off + n))
         let toUpsert := zipRecords ids embeds updated
         let metaDone := if useMetas then updated else metasRest.take bs
         match index, embeds[0]? with
         | none, none => ([.embedBatch batch], .error .indexError)
         | none, some e0 =>
           let rec1 := fromTextsLoop embedDocs tk name ns randoms bs hbs useMetas
             (rest.drop bs) (metasRest.drop bs) (off + batch.length) (some name)
           (.embedBatch batch :: .createIndex name e0.length ::
             .upsert name toUpsert ns :: rec1.1,
            rec1.2.map fun out => (out.1, metaDone ++ out.2))
         | some ix, _ =>
           let rec1 := fromTextsLoop embedDocs tk name ns randoms bs hbs useMetas
             (rest.drop bs) (metasRest.drop bs) (off + batch.length) (some ix)
           (.embedBatch batch :: .upsert ix toUpsert ns :: rec1.1,
            rec1.2.map fun out => (out.1, metaDone ++ out.2))
       else ([.embedBatch batch], .error .indexError)) := by
  cases rest with
  | nil => exact absurd rfl hne
  | cons t rest1 => rw [fromTextsLoop.eq_def]

theorem traceRecords_nil : traceRecords [] = [] := rfl

theorem traceRecords_cons (c : ServiceCall) (tr : List ServiceCall) :
    traceRecords (c :: tr) =
      (match c with | .upsert _ vs _ => vs | _ => []) ++ traceRecords tr := by
  simp [traceRecords]

theorem traceRecords_embedBatch (b : List String) (tr : List ServiceCall) :
    traceRecords (.embedBatch b :: tr) = traceRecords tr := by
  simp [traceRecords]

theorem traceRecords_createIndex (nm : String) (d : Nat) (tr : List ServiceCall) :
    traceRecords (.createIndex nm d :: tr) = traceRecords tr := by
  simp [traceRecords]

theorem traceRecords_listIndexes (tr : List ServiceCall) :
    traceRecords (.listIndexes :: tr) = traceRecords tr := by
  simp [traceRecords]

theorem traceRecords_upsert (nm : String) (vs : List UpsertRecord)
    (ns1 : Option String) (tr : List ServiceCall) :
    traceRecords (.upsert nm vs ns1 :: tr) = vs ++ traceRecords tr := by
  simp [traceRecords]

/-- The batch `zip(ids_batch, embeds, metadata)` of `from_texts`, specified:
when ids and embeds both align with the text batch and the metadata prefix is
long enough, the zipped records carry exactly the mutated dicts, their stored
texts are the batch texts, and positionally each record's metadata is the
`dictSet` of the corresponding caller dict. -/
theorem zipRecords_spec (tk : String) :
    ∀ (ts is1 : List String) (vs : List Vec) (ms0 junk : List Dict),
      is1.length = ts.length → vs.length = ts.length → ts.length ≤ ms0.length →
      (zipRecords is1 vs
          (List.zipWith (fun m tx => dictSet m tk (.str tx)) ms0 ts ++ junk)).length
          = ts.length ∧
      (zipRecords is1 vs
          (List.zipWith (fun m tx => dictSet m tk (.str tx)) ms0 ts ++ junk)).map
            (fun rec => recordText? rec tk) = ts.map some ∧
      (zipRecords is1 vs
          (List.zipWith (fun m tx => dictSet m tk (.str tx)) ms0 ts ++ junk)).map
            (fun rec => rec.metadata)
          = List.zipWith (fun m tx => dictSet m tk (.str tx)) ms0 ts := by
  intro ts
  induction ts with
  | nil =>
      intro is1 vs ms0 junk h1 h2 _
      have h1e : is1 = [] := List.eq_nil_of_length_eq_zero (by simpa using h1)
      have h2e : vs = [] := List.eq_nil_of_length_eq_zero (by simpa using h2)
      subst h1e; subst h2e
      simp [zipRecords, List.zipWith_nil_right]
  | cons t ts ih =>
      intro is1 vs ms0 junk h1 h2 h3
      cases is1 with
      | nil => simp at h1
      | cons i is1 =>
          cases vs with
          | nil => simp at h2
          | cons v vs =>
              cases ms0 with
              | nil => simp at h3
              | cons m ms0 =>
                  simp only [List.length_cons, Nat.succ_le_succ_iff,
                    Nat.add_right_cancel_iff] at h1 h2 h3
                  obtain ⟨hl, hr, hm⟩ := ih is1 vs ms0 junk h1 h2 h3
                  refine ⟨by simp [zipRecords, hl], ?_, by simp [zipRecords, hm]⟩
                  have hhead : recordText? ⟨i, v, dictSet m tk (.str t)⟩ tk = some t := by
                    simp [recordText?, dictGet?_set_self]
                  simp only [zipRecords, List.zipWith_cons_cons, List.cons_append,
                    List.append_eq, List.map_cons, hhead, hr]


theorem fromTextsLoop_false_spec (embedDocs : List String → List Vec)
    (tk name : String) (ns : Option String) (randoms : Nat → Nat)
    (bs : Nat) (hbs : 0 < bs) (hembed : ∀ l, (embedDocs l).length = l.length) :
    ∀ (n : Nat) (rest : List String), rest.length = n →
    ∀ (metasRest : List Dict) (off : Nat) (index : Option String)
      (tr : List ServiceCall) (idxOut : Option String) (mAfter : List Dict),
      fromTextsLoop embedDocs tk name ns randoms bs hbs false
        rest metasRest off index = (tr, .ok (idxOut, mAfter)) →
      (traceRecords tr).map (fun rec => recordText? rec tk) = rest.map some ∧
      mAfter = metasRest := by
  intro n
  induction n using Nat.strong_induction_on with
  | _ n ih =>
      intro rest hn metasRest off index tr idxOut mAfter h
      cases rest with
      | nil =>
          rw [fromTextsLoop.eq_def] at h
          simp only [Prod.mk.injEq, Except.ok.injEq] at h
          obtain ⟨htr, _, hma⟩ := h
          subst htr; subst hma
          exact ⟨rfl, rfl⟩
      | cons t rest1 =>
          rw [fromTextsLoop_ne_nil embedDocs tk name ns randoms bs hbs false
            (t :: rest1) (by simp) metasRest off index] at h
          simp only [Bool.false_eq_true, reduceIte, List.length_replicate,
            le_refl, if_true] at h
          have hBlen : ((t :: rest1).take bs).length = min bs (rest1.length + 1) := by
            simp [List.length_take]
          have hDlen : ((t :: rest1).drop bs).length = (rest1.length + 1) - bs := by
            simp [List.length_drop]
          have hdn : ((t :: rest1).drop bs).length < n := by
            rw [hDlen]
            simp only [List.length_cons] at hn
            omega
          have hidlen : ((List.range ((t :: rest1).take bs).length).map
              fun m => uuid4str (randoms (off + m))).length
              = ((t :: rest1).take bs).length := by simp
          have hz := zipRecords_spec tk ((t :: rest1).take bs)
            ((List.range ((t :: rest1).take bs).length).map
              fun m => uuid4str (randoms (off + m)))
            (embedDocs ((t :: rest1).take bs))
            (List.replicate ((t :: rest1).take bs).length [])
            ((List.replicate ((t :: rest1).take bs).length []).drop
              ((t :: rest1).take bs).length)
            hidlen (hembed _) (by simp)
          split at h
          · -- index = none, first embedding batch empty: error, contradiction
            simp at h
          · -- index = none: create then upsert then recurse
            rename_i e0 he0
            rcases hR : fromTextsLoop embedDocs tk name ns randoms bs hbs false
                ((t :: rest1).drop bs) (metasRest.drop bs)
                (off + ((t :: rest1).take bs).length) (some name) with ⟨tr1, res1⟩
            rw [hR] at h
            injection h with htr hres
            subst htr
            cases res1 with
            | error e => cases hres
            | ok out =>
                obtain ⟨idx1, mA1⟩ := out
                simp only [Except.map, Except.ok.injEq, Prod.mk.injEq] at hres
                obtain ⟨_, hma⟩ := hres
                subst hma
                obtain ⟨ha, hb⟩ := ih _ hdn _ rfl _ _ _ _ _ _ hR
                constructor
                · simp only [traceRecords_cons, List.map_append, ha, hz.2.1,
                    List.append_nil, List.nil_append]
                  rw [← List.map_append]
                  rw [List.take_append_drop]
                · rw [hb, List.take_append_drop]
          · -- index = some ix: upsert then recurse
            rename_i ix
            rcases hR : fromTextsLoop embedDocs tk name ns randoms bs hbs false
                ((t :: rest1).drop bs) (metasRest.drop bs)
                (off + ((t :: rest1).take bs).length) (some ix) with ⟨tr1, res1⟩
            rw [hR] at h
            injection h with htr hres
            subst htr
            cases res1 with
            | error e => cases hres
            | ok out =>
                obtain ⟨idx1, mA1⟩ := out
                simp only [Except.map, Except.ok.injEq, Prod.mk.injEq] at hres
                obtain ⟨_, hma⟩ := hres
                subst hma
                obtain ⟨ha, hb⟩ := ih _ hdn _ rfl _ _ _ _ _ _ hR
                constructor
                · simp only [traceRecords_cons, List.map_append, ha, hz.2.1,
                    List.append_nil, List.nil_append]
                  rw [← List.map_append]
                  rw [List.take_append_drop]
                · rw [hb, List.take_append_drop]


set_option maxHeartbeats 800000 in
/-- One batch step of the `from_texts` loop with caller metadata in use:
given the loop invariant for the tail, it holds for the whole suffix. -/
theorem fromTexts_true_step (tk : String) (bs : Nat) (hbs : 0 < bs)
    (R : List String) (metasRest mA1 : List Dict)
    (recs1 : List UpsertRecord) (E : List Vec) (ids : List String)
    (B : List String) (hB : B = R.take bs)
    (MB : List Dict) (hMB : MB = metasRest.take bs)
    (updated : List Dict)
    (hupd : updated = List.zipWith (fun m tx => dictSet m tk (.str tx)) MB B
      ++ MB.drop B.length)
    (hE : E.length = B.length) (hids : ids.length = B.length)
    (hle : B.length ≤ MB.length)
    (ha : recs1.map (fun rec => recordText? rec tk) = (R.drop bs).map some)
    (hlenA : mA1.length = (metasRest.drop bs).length)
    (hframeA : ∀ j : Nat, (R.drop bs).length ≤ j → mA1[j]? = (metasRest.drop bs)[j]?)
    (hidxA : ∀ (j : Nat) (s : String), (R.drop bs)[j]? = some s →
      ∃ m0 : Dict, (metasRest.drop bs)[j]? = some m0 ∧
        mA1[j]? = some (dictSet m0 tk (.str s)))
    (hmetaA : recs1.map (fun rec => rec.metadata) = mA1.take (R.drop bs).length) :
    (zipRecords ids E updated ++ recs1).map (fun rec => recordText? rec tk)
        = R.map some ∧
    (updated ++ mA1).length = metasRest.length ∧
    (∀ j : Nat, R.length ≤ j → (updated ++ mA1)[j]? = metasRest[j]?) ∧
    (∀ (j : Nat) (s : String), R[j]? = some s →
      ∃ m0 : Dict, metasRest[j]? = some m0 ∧
        (updated ++ mA1)[j]? = some (dictSet m0 tk (.str s))) ∧
    (zipRecords ids E updated ++ recs1).map (fun rec => rec.metadata)
        = (updated ++ mA1).take R.length := by
  have hBlen : B.length = min bs R.length := by rw [hB]; simp
  have hMBlen : MB.length = min bs metasRest.length := by rw [hMB]; simp
  have hzw_len : (List.zipWith (fun m tx => dictSet m tk (.str tx)) MB B).length
      = B.length := by rw [List.length_zipWith]; omega
  have hupd_len : updated.length = MB.length := by
    rw [hupd, List.length_append, hzw_len, List.length_drop]; omega
  have hDlen : (R.drop bs).length = R.length - bs := by simp
  have hMDlen : (metasRest.drop bs).length = metasRest.length - bs := by simp
  have hz := zipRecords_spec tk B ids E MB (MB.drop B.length) hids hE hle
  have hzText : (zipRecords ids E updated).map (fun rec => recordText? rec tk)
      = B.map some := by rw [hupd]; exact hz.2.1
  have hzMeta : (zipRecords ids E updated).map (fun rec => rec.metadata)
      = List.zipWith (fun m tx => dictSet m tk (.str tx)) MB B := by
    rw [hupd]; exact hz.2.2
  refine ⟨?_, ?_, ?_, ?_, ?_⟩
  · rw [List.map_append, hzText, ha, ← List.map_append, hB, List.take_append_drop]
  · rw [List.length_append, hupd_len, hlenA]
    omega
  · intro j hj
    have hBR : B.length ≤ R.length := by omega
    by_cases hj1 : j < updated.length
    · rw [List.getElem?_append_left hj1, hupd]
      rw [List.getElem?_append_right (by rw [hzw_len]; omega)]
      rw [hzw_len, List.getElem?_drop]
      have he1 : B.length + (j - B.length) = j := by omega
      rw [he1, hMB, List.getElem?_take, if_pos (by omega)]
    · push_neg at hj1
      rw [List.getElem?_append_right hj1]
      by_cases hbsM : bs ≤ metasRest.length
      · have hj2 : (R.drop bs).length ≤ j - updated.length := by omega
        rw [hframeA _ hj2, List.getElem?_drop]
        congr 1
        omega
      · push_neg at hbsM
        rw [List.getElem?_eq_none (by omega), List.getElem?_eq_none (by omega)]
  · intro j s hjs
    have hjR : j < R.length := (List.getElem?_eq_some.mp hjs).1
    by_cases hj1 : j < B.length
    · have hjbs : j < bs := by omega
      have hBj : B[j]? = some s := by
        rw [hB, List.getElem?_take_of_lt hjbs]
        exact hjs
      have hjMB : j < MB.length := by omega
      obtain ⟨m0, hm0⟩ : ∃ m0, MB[j]? = some m0 :=
        ⟨MB[j], List.getElem?_eq_getElem hjMB⟩
      have hmr : metasRest[j]? = some m0 := by
        rw [hMB, List.getElem?_take, if_pos hjbs] at hm0
        exact hm0
      refine ⟨m0, hmr, ?_⟩
      rw [List.getElem?_append_left (by omega), hupd]
      rw [List.getElem?_append_left (by rw [hzw_len]; omega)]
      rw [List.getElem?_zipWith, hm0, hBj]
    · push_neg at hj1
      have hblt : B.length = bs := by omega
      have hul : updated.length = bs := by omega
      rw [List.getElem?_append_right (by omega)]
      have hD : (R.drop bs)[j - updated.length]? = some s := by
        rw [List.getElem?_drop]
        have he2 : bs + (j - updated.length) = j := by omega
        rw [he2]
        exact hjs
      obtain ⟨m0, hm0, hmA⟩ := hidxA _ _ hD
      refine ⟨m0, ?_, hmA⟩
      rw [List.getElem?_drop] at hm0
      have he3 : bs + (j - updated.length) = j := by omega
      rw [he3] at hm0
      exact hm0
  · rw [List.map_append, hzMeta, hmetaA]
    by_cases hRbs : R.length ≤ bs
    · have hBl : B.length = R.length := by omega
      have hDl : (R.drop bs).length = 0 := by omega
      rw [hDl, List.take_zero, List.append_nil]
      rw [List.take_append_of_le_length (by omega)]
      rw [hupd, List.take_append_of_le_length (by rw [hzw_len]; omega)]
      rw [List.take_of_length_le (by rw [hzw_len]; omega)]
    · push_neg at hRbs
      have hBl : B.length = bs := by omega
      have hMBl : MB.length = bs := by omega
      have hdropnil : MB.drop B.length = [] := List.drop_eq_nil_of_le (by omega)
      rw [hupd, hdropnil, List.append_nil]
      have harg : (List.zipWith (fun m tx => dictSet m tk (.str tx)) MB B).length
          + (R.length - bs) = R.length := by rw [hzw_len]; omega
      rw [← harg, List.take_append, hDlen]


theorem fromTextsLoop_true_spec (embedDocs : List String → List Vec)
    (tk name : String) (ns : Option String) (randoms : Nat → Nat)
    (bs : Nat) (hbs : 0 < bs) (hembed : ∀ l, (embedDocs l).length = l.length) :
    ∀ (n : Nat) (rest : List String), rest.length = n →
    ∀ (metasRest : List Dict) (off : Nat) (index : Option String)
      (tr : List ServiceCall) (idxOut : Option String) (mAfter : List Dict),
      fromTextsLoop embedDocs tk name ns randoms bs hbs true
        rest metasRest off index = (tr, .ok (idxOut, mAfter)) →
      (traceRecords tr).map (fun rec => recordText? rec tk) = rest.map some ∧
      mAfter.length = metasRest.length ∧
      (∀ j : Nat, rest.length ≤ j → mAfter[j]? = metasRest[j]?) ∧
      (∀ (j : Nat) (s : String), rest[j]? = some s →
        ∃ m0 : Dict, metasRest[j]? = some m0 ∧
          mAfter[j]? = some (dictSet m0 tk (.str s))) ∧
      (traceRecords tr).map (fun rec => rec.metadata) = mAfter.take rest.length := by
  intro n
  induction n using Nat.strong_induction_on with
  | _ n ih =>
      intro rest hn metasRest off index tr idxOut mAfter h
      cases rest with
      | nil =>
          rw [fromTextsLoop.eq_def] at h
          simp only [Prod.mk.injEq, Except.ok.injEq] at h
          obtain ⟨htr, _, hma⟩ := h
          subst htr; subst hma
          refine ⟨rfl, rfl, fun j _ => rfl, ?_, by simp [traceRecords_nil]⟩
          intro j s hjs
          simp at hjs
      | cons t rest1 =>
          rw [fromTextsLoop_ne_nil embedDocs tk name ns randoms bs hbs true
            (t :: rest1) (by simp) metasRest off index] at h
          simp only [reduceIte] at h
          have hdn : ((t :: rest1).drop bs).length < n := by
            simp only [List.length_cons] at hn
            simp only [List.length_drop, List.length_cons]
            omega
          split at h
          · -- the metadata slice covers the batch
            rename_i hle
            split at h
            · -- index = none, empty embedding batch: error, contradiction
              simp at h
            · -- index = none: create then upsert then recurse
              rename_i e0 he0
              rcases hR : fromTextsLoop embedDocs tk name ns randoms bs hbs true
                  ((t :: rest1).drop bs) (metasRest.drop bs)
                  (off + ((t :: rest1).take bs).length) (some name) with ⟨tr1, res1⟩
              rw [hR] at h
              injection h with htr hres
              subst htr
              cases res1 with
              | error e => cases hres
              | ok out =>
                  obtain ⟨idx1, mA1⟩ := out
                  simp only [Except.map, Except.ok.injEq, Prod.mk.injEq] at hres
                  obtain ⟨_, hma⟩ := hres
                  subst hma
                  obtain ⟨ha, hlenA, hframeA, hidxA, hmetaA⟩ :=
                    ih _ hdn _ rfl _ _ _ _ _ _ hR
                  have hstep := fromTexts_true_step tk bs hbs (t :: rest1)
                    metasRest mA1 (traceRecords tr1)
                    (embedDocs ((t :: rest1).take bs))
                    ((List.range ((t :: rest1).take bs).length).map
                      fun m => uuid4str (randoms (off + m)))
                    ((t :: rest1).take bs) rfl (metasRest.take bs) rfl
                    (List.zipWith (fun m tx => dictSet m tk (.str tx))
                        (metasRest.take bs) ((t :: rest1).take bs)
                      ++ (metasRest.take bs).drop ((t :: rest1).take bs).length) rfl
                    (hembed _) (by simp) hle ha hlenA hframeA hidxA hmetaA
                  refine ⟨?_, hstep.2.1, hstep.2.2.1, hstep.2.2.2.1, ?_⟩
                  · rw [traceRecords_embedBatch, traceRecords_createIndex,
                      traceRecords_upsert]
                    exact hstep.1
                  · rw [traceRecords_embedBatch, traceRecords_createIndex,
                      traceRecords_upsert]
                    exact hstep.2.2.2.2
            · -- index = some ix
              rename_i ix
              rcases hR : fromTextsLoop embedDocs tk name ns randoms bs hbs true
                  ((t :: rest1).drop bs) (metasRest.drop bs)
                  (off + ((t :: rest1).take bs).length) (some ix) with ⟨tr1, res1⟩
              rw [hR] at h
              injection h with htr hres
              subst htr
              cases res1 with
              | error e => cases hres
              | ok out =>
                  obtain ⟨idx1, mA1⟩ := out
                  simp only [Except.map, Except.ok.injEq, Prod.mk.injEq] at hres
                  obtain ⟨_, hma⟩ := hres
                  subst hma
                  obtain ⟨ha, hlenA, hframeA, hidxA, hmetaA⟩ :=
                    ih _ hdn _ rfl _ _ _ _ _ _ hR
                  have hstep := fromTexts_true_step tk bs hbs (t :: rest1)
                    metasRest mA1 (traceRecords tr1)
                    (embedDocs ((t :: rest1).take bs))
                    ((List.range ((t :: rest1).take bs).length).map
                      fun m => uuid4str (randoms (off + m)))
                    ((t :: rest1).take bs) rfl (metasRest.take bs) rfl
                    (List.zipWith (fun m tx => dictSet m tk (.str tx))
                        (metasRest.take bs) ((t :: rest1).take bs)
                      ++ (metasRest.take bs).drop ((t :: rest1).take bs).length) rfl
                    (hembed _) (by simp) hle ha hlenA hframeA hidxA hmetaA
                  refine ⟨?_, hstep.2.1, hstep.2.2.1, hstep.2.2.2.1, ?_⟩
                  · rw [traceRecords_embedBatch, traceRecords_upsert]
                    exact hstep.1
                  · rw [traceRecords_embedBatch, traceRecords_upsert]
                    exact hstep.2.2.2.2
          · -- metadata slice too short: error, contradiction
            simp at h


theorem from_texts_ok_elim
    (embedDocs : List String → List Vec) (embedQuery : String → Vec)
    (texts : List String) (metadatas : Option (List Dict)) (batch_size : Nat)
    (text_key : String) (index_name : Option String) (ns : Option String)
    (existing : List String) (rName : Nat) (randoms : Nat → Nat)
    (p : Pinecone)
    (hok : (from_texts embedDocs embedQuery texts metadatas batch_size text_key
        index_name ns existing rName randoms).result = .ok p) :
    ∃ (hbs : 0 < batch_size) (nm : String) (index0 : Option String)
      (tr1 : List ServiceCall) (idxOut : Option String) (mAfter : List Dict),
      fromTextsLoop embedDocs text_key nm ns randoms batch_size hbs
          (metasTruthy metadatas) texts (metadatas.getD []) 0 index0
        = (tr1, .ok (idxOut, mAfter)) ∧
      (from_texts embedDocs embedQuery texts metadatas batch_size text_key
          index_name ns existing rName randoms).trace = .listIndexes :: tr1 ∧
      (from_texts embedDocs embedQuery texts metadatas batch_size text_key
          index_name ns existing rName randoms).metadatasAfter = some mAfter := by
  by_cases hbs : 0 < batch_size
  · refine ⟨hbs, ?_⟩
    simp only [from_texts, dif_pos hbs] at hok ⊢
    set NM := (match index_name with
      | some n => if n = "" then uuid4str rName else n
      | none => uuid4str rName) with hNM
    set IDX0 := (if NM ∈ existing then some NM else none) with hIDX0
    set UM := (match metadatas with
      | some (_ :: _) => true
      | _ => false) with hUM
    have hUM1 : metasTruthy metadatas = UM := by
      rw [hUM]
      cases metadatas with
      | none => rfl
      | some l => cases l <;> rfl
    rcases hL : fromTextsLoop embedDocs text_key NM ns randoms batch_size hbs
        UM texts (metadatas.getD []) 0 IDX0 with ⟨tr1, res1⟩
    cases res1 with
    | error e =>
        rw [hL] at hok
        simp at hok
    | ok out =>
        obtain ⟨idxOut, mAfter⟩ := out
        refine ⟨NM, IDX0, tr1, idxOut, mAfter, ?_, rfl, rfl⟩
        rw [hUM1]
        exact hL
  · exfalso
    simp only [from_texts, dif_neg hbs] at hok
    cases hok


/-- Claim C2: every record upserted by `add_texts` carries, under the
configured `text_key`, exactly its own source text — overwriting any
caller-supplied value at that key, since this holds for every `metadatas`
argument — and every record upserted across the batches of `from_texts`
does likewise: reading `text_key` back from the upserted records of the
whole trace returns precisely the input texts in order. -/
theorem upsert_textKey_invariant :
    (∀ (p : Pinecone) (randoms : Nat → Nat) (texts : List String)
        (metadatas : Option (List Dict)) (ns : Option String) (r : AddTextsResult),
      p.add_texts randoms texts metadatas ns = .ok r →
      ∀ (j : Nat) (t : String), texts[j]? = some t →
        ∃ rec : UpsertRecord, r.vectors[j]? = some rec ∧
          dictGet? rec.metadata p.text_key = some (.str t)) ∧
    (∀ (embedDocs : List String → List Vec) (embedQuery : String → Vec)
        (texts : List String) (metadatas : Option (List Dict)) (batch_size : Nat)
        (text_key : String) (index_name : Option String) (ns : Option String)
        (existing : List String) (rName : Nat) (randoms : Nat → Nat) (p : Pinecone),
      (∀ l, (embedDocs l).length = l.length) →
      (from_texts embedDocs embedQuery texts metadatas batch_size text_key
          index_name ns existing rName randoms).result = .ok p →
      (traceRecords (from_texts embedDocs embedQuery texts metadatas batch_size
          text_key index_name ns existing rName randoms).trace).map
        (fun rec => recordText? rec text_key) = texts.map some) := by
  constructor
  · intro p randoms texts metadatas ns r h j t ht
    obtain ⟨docs, ids, mAfter, hloop, hr⟩ := add_texts_ok_elim p randoms _ _ _ _ h
    subst hr
    obtain ⟨_, _, _, _, _, hspec⟩ :=
      addTextsLoop_ok_spec p.embedding_function p.text_key randoms _ _ _ _ _ _ _ hloop
    obtain ⟨m0, _, _, hdoc, _⟩ := hspec j t ht
    simp only [Nat.zero_add] at hdoc
    exact ⟨_, hdoc, dictGet?_set_self m0 p.text_key (.str t)⟩
  · intro embedDocs embedQuery texts metadatas batch_size text_key index_name
      ns existing rName randoms p hembed hok
    obtain ⟨hbs, nm, index0, tr1, idxOut, mAfter, hloop, htrace, _⟩ :=
      from_texts_ok_elim embedDocs embedQuery texts metadatas batch_size
        text_key index_name ns existing rName randoms p hok
    rw [htrace, traceRecords_listIndexes]
    cases hum : metasTruthy metadatas with
    | false =>
        rw [hum] at hloop
        exact (fromTextsLoop_false_spec embedDocs text_key nm ns randoms
          batch_size hbs hembed texts.length texts rfl _ _ _ _ _ _ hloop).1
    | true =>
        rw [hum] at hloop
        exact (fromTextsLoop_true_spec embedDocs text_key nm ns randoms
          batch_size hbs hembed texts.length texts rfl _ _ _ _ _ _ hloop).1

theorem upsert_textKey_invariant_witness :
    (Pinecone.add_texts ⟨"i", fun _ => [5], "text"⟩ (fun n => n) ["a"]
        (some [[("text", PValue.int 7)]]) none =
      .ok ⟨[uuid4str 0], [⟨uuid4str 0, [5], [("text", PValue.str "a")]⟩],
        none, [[("text", PValue.str "a")]]⟩) ∧
    (∃ rec : UpsertRecord,
      ([⟨uuid4str 0, [5], [("text", PValue.str "a")]⟩] :
          List UpsertRecord)[0]? = some rec ∧
      dictGet? rec.metadata "text" = some (.str "a")) :=
  ⟨rfl,
    upsert_textKey_invariant.1 ⟨"i", fun _ => [5], "text"⟩ (fun n => n) ["a"]
      (some [[("text", PValue.int 7)]]) none
      ⟨[uuid4str 0], [⟨uuid4str 0, [5], [("text", PValue.str "a")]⟩],
        none, [[("text", PValue.str "a")]]⟩
      rfl 0 "a" rfl⟩

/-- Claim C9: `add_texts` mutates the caller-supplied metadata dicts in
place: with a non-empty `metadatas` list, after a successful call the `j`-th
caller dict is the `j`-th stored dict and now holds `text_key ↦ text_j`,
dicts beyond the texts are untouched; `from_texts` (under the embedding
provider contract) does the same to its `metadatas` argument, and the stored
records' metadata are exactly the mutated caller dicts. -/
theorem metadatas_mutated_in_place :
    (∀ (p : Pinecone) (randoms : Nat → Nat) (texts : List String)
        (l : List Dict) (ns : Option String) (r : AddTextsResult),
      p.add_texts randoms texts (some l) ns = .ok r → l ≠ [] →
      r.metadatasAfter.length = l.length ∧
      (∀ (j : Nat) (t : String), texts[j]? = some t →
        ∃ m0 : Dict, l[j]? = some m0 ∧
          r.metadatasAfter[j]? = some (dictSet m0 p.text_key (.str t)) ∧
          r.vectors[j]? = some ⟨uuid4str (randoms j), p.embedding_function t,
            dictSet m0 p.text_key (.str t)⟩) ∧
      (∀ j : Nat, texts.length ≤ j → r.metadatasAfter[j]? = l[j]?)) ∧
    (∀ (embedDocs : List String → List Vec) (embedQuery : String → Vec)
        (texts : List String) (l : List Dict) (batch_size : Nat)
        (text_key : String) (index_name : Option String) (ns : Option String)
        (existing : List String) (rName : Nat) (randoms : Nat → Nat) (p : Pinecone),
      (∀ l1, (embedDocs l1).length = l1.length) →
      (from_texts embedDocs embedQuery texts (some l) batch_size text_key
          index_name ns existing rName randoms).result = .ok p → l ≠ [] →
      ∃ mAfter : List Dict,
        (from_texts embedDocs embedQuery texts (some l) batch_size text_key
            index_name ns existing rName randoms).metadatasAfter = some mAfter ∧
        mAfter.length = l.length ∧
        (∀ (j : Nat) (t : String), texts[j]? = some t →
          ∃ m0 : Dict, l[j]? = some m0 ∧
            mAfter[j]? = some (dictSet m0 text_key (.str t))) ∧
        (∀ j : Nat, texts.length ≤ j → mAfter[j]? = l[j]?) ∧
        (traceRecords (from_texts embedDocs embedQuery texts (some l) batch_size
            text_key index_name ns existing rName randoms).trace).map
          (fun rec => rec.metadata) = mAfter.take texts.length) := by
  constructor
  · intro p randoms texts l ns r h hl
    obtain ⟨docs, ids, mAfter, hloop, hr⟩ := add_texts_ok_elim p randoms _ _ _ _ h
    subst hr
    have hum : metasTruthy (some l) = true := by
      cases l with
      | nil => exact absurd rfl hl
      | cons d l1 => rfl
    rw [hum] at hloop
    obtain ⟨_, _, hmaLen, _, hframe, hspec⟩ :=
      addTextsLoop_ok_spec p.embedding_function p.text_key randoms _ _ _ _ _ _ _ hloop
    refine ⟨hmaLen, ?_, ?_⟩
    · intro j t ht
      obtain ⟨m0, hm0t, _, hdoc, hma⟩ := hspec j t ht
      simp only [Nat.zero_add] at hdoc hm0t hma
      exact ⟨m0, hm0t trivial, hma trivial, hdoc⟩
    · intro j hj
      exact hframe j (Or.inr (by omega))
  · intro embedDocs embedQuery texts l batch_size text_key index_name ns
      existing rName randoms p hembed hok hl
    obtain ⟨hbs, nm, index0, tr1, idxOut, mAfter, hloop, htrace, hma⟩ :=
      from_texts_ok_elim embedDocs embedQuery texts (some l) batch_size
        text_key index_name ns existing rName randoms p hok
    have hum : metasTruthy (some l) = true := by
      cases l with
      | nil => exact absurd rfl hl
      | cons d l1 => rfl
    rw [hum] at hloop
    obtain ⟨_, hlen, hframe, hidx, hmeta⟩ :=
      fromTextsLoop_true_spec embedDocs text_key nm ns randoms batch_size hbs
        hembed texts.length texts rfl _ _ _ _ _ _ hloop
    refine ⟨mAfter, hma, hlen, ?_, hframe, ?_⟩
    · intro j t ht
      exact hidx j t ht
    · rw [htrace, traceRecords_listIndexes]
      exact hmeta

theorem metadatas_mutated_in_place_witness :
    (Pinecone.add_texts ⟨"i", fun _ => [5], "text"⟩ (fun n => n) ["a"]
        (some [[("x", PValue.int 1)], [("y", PValue.int 2)]]) none =
      .ok ⟨[uuid4str 0],
        [⟨uuid4str 0, [5], [("x", PValue.int 1), ("text", PValue.str "a")]⟩],
        none,
        [[("x", PValue.int 1), ("text", PValue.str "a")], [("y", PValue.int 2)]]⟩) ∧
    ([[("x", PValue.int 1), ("text", PValue.str "a")], [("y", PValue.int 2)]] :
        List Dict).length =
      ([[("x", PValue.int 1)], [("y", PValue.int 2)]] : List Dict).length :=
  ⟨rfl,
    (metadatas_mutated_in_place.1 ⟨"i", fun _ => [5], "text"⟩ (fun n => n) ["a"]
      [[("x", PValue.int 1)], [("y", PValue.int 2)]] none
      ⟨[uuid4str 0],
        [⟨uuid4str 0, [5], [("x", PValue.int 1), ("text", PValue.str "a")]⟩],
        none,
        [[("x", PValue.int 1), ("text", PValue.str "a")], [("y", PValue.int 2)]]⟩
      rfl (by decide)).1⟩


/-- Claim C10: `from_texts` on an empty text list with a fresh (nonexistent)
index name calls only `list_indexes` — it never creates the index and never
upserts — and fails at the final construction step, because the handle passed
to the constructor is still `None`, which the constructor rejects as a
type-mismatch `ValueError`. -/
theorem from_texts_empty_fails (embedDocs : List String → List Vec)
    (embedQuery : String → Vec) (metadatas : Option (List Dict))
    (batch_size : Nat) (text_key nm : String) (ns : Option String)
    (existing : List String) (rName : Nat) (randoms : Nat → Nat)
    (hbs : 0 < batch_size) (hnm : nm ≠ "") (hex : nm ∉ existing) :
    (from_texts embedDocs embedQuery [] metadatas batch_size text_key
        (some nm) ns existing rName randoms).trace = [.listIndexes] ∧
    (from_texts embedDocs embedQuery [] metadatas batch_size text_key
        (some nm) ns existing rName randoms).result =
      .error (.valueError "client should be an instance of pinecone.index.Index") := by
  have h1 : (if nm = "" then uuid4str rName else nm) = nm := if_neg hnm
  have h2 : (if nm ∈ existing then some nm else none) = (none : Option String) :=
    if_neg hex
  constructor <;>
    simp only [from_texts, dif_pos hbs, h1, h2, fromTextsLoop.eq_def] <;> rfl

theorem from_texts_empty_fails_witness :
    (0 < 32 ∧ "nm" ≠ "" ∧ "nm" ∉ (["other"] : List String)) ∧
    ((from_texts (fun l => l.map fun _ => [0]) (fun _ => [0]) [] none 32 "text"
        (some "nm") none ["other"] 0 (fun n => n)).trace = [.listIndexes] ∧
      (from_texts (fun l => l.map fun _ => [0]) (fun _ => [0]) [] none 32 "text"
          (some "nm") none ["other"] 0 (fun n => n)).result =
        .error (.valueError "client should be an instance of pinecone.index.Index")) :=
  ⟨⟨by decide, by decide, by decide⟩,
    from_texts_empty_fails (fun l => l.map fun _ => [0]) (fun _ => [0]) none 32
      "text" "nm" none ["other"] 0 (fun n => n) (by decide) (by decide) (by decide)⟩


set_option maxHeartbeats 1000000 in
/-- Claim C6: `from_texts` with `batch_size = 32` and 100 input texts on a
not-yet-existing index issues, after the single `list_indexes` call, exactly
four upserts of sizes 32, 32, 32, 4 in that order; the index is created
exactly once, after the first batch is embedded and before anything else,
and its dimension is the length of the first embedding of the first batch. -/
theorem from_texts_batches_100 (embedDocs : List String → List Vec)
    (embedQuery : String → Vec) (texts : List String) (text_key nm : String)
    (ns : Option String) (existing : List String) (rName : Nat)
    (randoms : Nat → Nat)
    (hlen : texts.length = 100)
    (hembed : ∀ l, (embedDocs l).length = l.length)
    (hnm : nm ≠ "") (hex : nm ∉ existing) :
    ∃ (e0 : Vec) (v1 v2 v3 v4 : List UpsertRecord),
      (embedDocs (texts.take 32))[0]? = some e0 ∧
      (from_texts embedDocs embedQuery texts none 32 text_key (some nm) ns
          existing rName randoms).trace =
        [.listIndexes, .embedBatch (texts.take 32), .createIndex nm e0.length,
         .upsert nm v1 ns, .embedBatch ((texts.drop 32).take 32), .upsert nm v2 ns,
         .embedBatch (((texts.drop 32).drop 32).take 32), .upsert nm v3 ns,
         .embedBatch ((((texts.drop 32).drop 32).drop 32).take 32),
         .upsert nm v4 ns] ∧
      v1.length = 32 ∧ v2.length = 32 ∧ v3.length = 32 ∧ v4.length = 4 := by
  have h1 : (if nm = "" then uuid4str rName else nm) = nm := if_neg hnm
  have h2 : (if nm ∈ existing then some nm else none) = (none : Option String) :=
    if_neg hex
  have hb1 : (texts.take 32).length = 32 := by simp [hlen]
  have hd1 : (texts.drop 32).length = 68 := by simp [hlen]
  have hb2 : ((texts.drop 32).take 32).length = 32 := by simp [hlen]
  have hd2 : ((texts.drop 32).drop 32).length = 36 := by simp [hlen]
  have hb3 : (((texts.drop 32).drop 32).take 32).length = 32 := by simp [hlen]
  have hd3 : (((texts.drop 32).drop 32).drop 32).length = 4 := by simp [hlen]
  have hb4 : ((((texts.drop 32).drop 32).drop 32).take 32).length = 4 := by
    simp [hlen]
  have hd4 : (((texts.drop 32).drop 32).drop 32).drop 32 = [] :=
    List.drop_eq_nil_of_le (by omega)
  obtain ⟨e0, he0⟩ : ∃ e0, (embedDocs (texts.take 32))[0]? = some e0 := by
    have hlt : 0 < (embedDocs (texts.take 32)).length := by
      rw [hembed, hb1]
      omega
    exact ⟨_, List.getElem?_eq_getElem hlt⟩
  have hne1 : texts ≠ [] := by
    intro he
    rw [he] at hlen
    cases hlen
  have hne2 : texts.drop 32 ≠ [] := by
    intro he
    rw [he] at hd1
    cases hd1
  have hne3 : (texts.drop 32).drop 32 ≠ [] := by
    intro he
    rw [he] at hd2
    cases hd2
  have hne4 : ((texts.drop 32).drop 32).drop 32 ≠ [] := by
    intro he
    rw [he] at hd3
    cases hd3
  have hall : ∀ (b : List String), b.length ≤ (List.replicate b.length
      ([] : Dict)).length := by
    intro b
    simp
  simp only [from_texts, dif_pos (by omega : (0 : Nat) < 32), h1, h2]
  rw [fromTextsLoop_ne_nil embedDocs text_key nm ns randoms 32 (by omega) false
    texts hne1]
  simp only [Bool.false_eq_true, reduceIte, List.length_replicate, le_refl,
    if_true, he0]
  rw [fromTextsLoop_ne_nil embedDocs text_key nm ns randoms 32 (by omega) false
    (texts.drop 32) hne2]
  simp only [Bool.false_eq_true, reduceIte, List.length_replicate, le_refl,
    if_true]
  rw [fromTextsLoop_ne_nil embedDocs text_key nm ns randoms 32 (by omega) false
    ((texts.drop 32).drop 32) hne3]
  simp only [Bool.false_eq_true, reduceIte, List.length_replicate, le_refl,
    if_true]
  rw [fromTextsLoop_ne_nil embedDocs text_key nm ns randoms 32 (by omega) false
    (((texts.drop 32).drop 32).drop 32) hne4]
  simp only [Bool.false_eq_true, reduceIte, List.length_replicate, le_refl,
    if_true, hd4]
  rw [fromTextsLoop.eq_def]
  refine ⟨e0, _, _, _, _, rfl, rfl, ?_, ?_, ?_, ?_⟩
  · exact ((zipRecords_spec text_key (texts.take 32) _ _ _ _ (by simp)
      (hembed _) (hall _)).1).trans hb1
  · exact ((zipRecords_spec text_key ((texts.drop 32).take 32) _ _ _ _ (by simp)
      (hembed _) (hall _)).1).trans hb2
  · exact ((zipRecords_spec text_key (((texts.drop 32).drop 32).take 32) _ _ _ _
      (by simp) (hembed _) (hall _)).1).trans hb3
  · exact ((zipRecords_spec text_key ((((texts.drop 32).drop 32).drop 32).take 32)
      _ _ _ _ (by simp) (hembed _) (hall _)).1).trans hb4


theorem from_texts_batches_100_witness :
    ((List.replicate 100 "t").length = 100 ∧ "nm" ≠ "" ∧
      "nm" ∉ ([] : List String)) ∧
    ∃ (e0 : Vec) (v1 v2 v3 v4 : List UpsertRecord),
      ((fun l => l.map fun _ => ([0] : Vec)) ((List.replicate 100 "t").take 32))[0]?
        = some e0 ∧
      (from_texts (fun l => l.map fun _ => [0]) (fun _ => [0])
          (List.replicate 100 "t") none 32 "text" (some "nm") none [] 0
          (fun n => n)).trace =
        [.listIndexes, .embedBatch ((List.replicate 100 "t").take 32),
         .createIndex "nm" e0.length, .upsert "nm" v1 none,
         .embedBatch (((List.replicate 100 "t").drop 32).take 32),
         .upsert "nm" v2 none,
         .embedBatch ((((List.replicate 100 "t").drop 32).drop 32).take 32),
         .upsert "nm" v3 none,
         .embedBatch (((((List.replicate 100 "t").drop 32).drop 32).drop 32).take 32),
         .upsert "nm" v4 none] ∧
      v1.length = 32 ∧ v2.length = 32 ∧ v3.length = 32 ∧ v4.length = 4 :=
  ⟨⟨by decide, by decide, by decide⟩,
    from_texts_batches_100 (fun l => l.map fun _ => [0]) (fun _ => [0])
      (List.replicate 100 "t") "text" "nm" none [] 0 (fun n => n)
      (by decide) (fun l => by simp) (by decide) (by decide)⟩

end LC
